import Mathlib

/-!
Verification of the SubPrimeDivide factorization engine.

Shallow embedding, in Lean 4, of the arithmetic kernels of the repository:
the Trurl semiprime equation solver (`api/app/equations/semiprime_equation.py`),
Pollard rho (`api/app/algos/pollard_rho.py`), classical Shor order finding
(`api/app/algos/shor_classical.py`), the primality certificate builder and
verifier (`api/app/algos/certificate.py`), complete trial-division
factorization (`api/app/algos/batch_gcd.py`), the job control service
(`api/app/services/job_service.py`, `api/app/routes/jobs.py`) and the
progress writes of the worker pipeline (`api/app/worker.py`).

Python arbitrary-precision integers are modelled as `Nat`; Python `//` on
nonnegative operands is `Nat` division; `gmpy2.powmod`, `gmpy2.gcd` and
`gmpy2.is_prime` are library primitives modelled by their mathematical
meaning (`a ^ e % n`, `Nat.gcd`, `Nat.Prime`; `gmpy2.is_prime` is a
BPSW-style probable-prime test that the repository uses as a primality
oracle).  Fallible functions return `Option`.  Randomness is made explicit:
random draws become parameters.
-/

namespace SemiprimeEquation

/-- Embedding of `SemiPrimeEquationSolver.compute_y_from_x`:
`y = ((pnp^2 // x) + x*x) // pnp`, all divisions being integer floor
divisions (the solver precomputes `pnp_squared = pnp ** 2`). -/
def compute_y_from_x (pnp x : ℕ) : ℕ :=
  (pnp ^ 2 / x + x * x) / pnp

/-- Embedding of `SemiPrimeEquationSolver.verify_inverse_relationship`:
returns `False` when `x1 >= x2`, otherwise whether `y1 > y2`. -/
def verify_inverse_relationship (pnp x1 x2 : ℕ) : Bool :=
  if x1 ≥ x2 then false
  else decide (compute_y_from_x pnp x1 > compute_y_from_x pnp x2)

/-- Embedding of `SemiPrimeEquationSolver.verify_decreasing_region`:
`x ** 3 < pnp_squared // 2`. -/
def verify_decreasing_region (pnp x : ℕ) : Bool :=
  decide (x ^ 3 < pnp ^ 2 / 2)

/-- Fuel-driven decimal digit counter (the fuel argument only bounds the
recursion; `numDigits` supplies enough). -/
def numDigitsAux : ℕ → ℕ → ℕ
  | 0, _ => 1
  | fuel + 1, n => if n < 10 then 1 else numDigitsAux fuel (n / 10) + 1

/-- Number of decimal digits, `len(str(n))`, for positive `n` (and `1` at
`n = 0`, matching `len("0")`). -/
def numDigits (n : ℕ) : ℕ := numDigitsAux n n

lemma numDigitsAux_eq_log {fuel n : ℕ} (hn : n ≤ fuel) :
    numDigitsAux fuel n = Nat.log 10 n + 1 := by
  induction fuel generalizing n with
  | zero =>
    interval_cases n
    simp [numDigitsAux]
  | succ f ih =>
    rw [numDigitsAux]
    by_cases h10 : n < 10
    · have : Nat.log 10 n = 0 := Nat.log_eq_zero_iff.mpr (Or.inl h10)
      simp [h10, this]
    · have hpos : 0 < n := by omega
      have hlt : n / 10 ≤ f := by
        have := Nat.div_lt_self hpos (by norm_num : 1 < 10)
        omega
      have hlog : Nat.log 10 (n / 10) = Nat.log 10 n - 1 :=
        Nat.log_div_base 10 n
      have hlog1 : Nat.log 10 n ≠ 0 := by
        intro h0
        rcases Nat.log_eq_zero_iff.mp h0 with h' | h' <;> omega
      simp only [h10, if_false, ih hlt, hlog]
      omega

/-- For every `n`, `numDigits n = Nat.log 10 n + 1`. -/
lemma numDigits_eq_log (n : ℕ) : numDigits n = Nat.log 10 n + 1 :=
  numDigitsAux_eq_log le_rfl

/-- Embedding of `SemiPrimeEquationSolver.find_critical_point_derivative`.
The source computes `int((2.0/3.0)*(digits-1) - math.log10(2.0)/3.0)` in
floating point and returns `10 ** that`.  Because the fractional part of
`2*(digits-1)/3` lies in `{0, 1/3, 2/3}` and `log10(2)/3 = 0.10034...`,
truncation toward zero of that float equals `(2*(digits-1) - 1) / 3` in
integer floor division for every digit count realizable here (the float
error cannot bridge the remaining gap of at least `0.1`), including the
`digits = 1` case where both give exponent `0`. -/
def find_critical_point_derivative (pnp : ℕ) : ℕ :=
  10 ^ ((2 * (numDigits pnp - 1) - 1) / 3)

/-- Helper identity behind the primary Trurl equation: if `pnp = x * y`
with `x, y` positive then the floor-division expression evaluates to
`y + x / y` exactly. -/
lemma compute_y_from_x_mul (x y : ℕ) (hx : 0 < x) (hy : 0 < y) :
    compute_y_from_x (x * y) x = y + x / y := by
  unfold compute_y_from_x
  have h1 : (x * y) ^ 2 / x = x * (y * y) := by
    have : (x * y) ^ 2 = x * (x * (y * y)) := by ring
    rw [this, Nat.mul_div_cancel_left _ hx]
  rw [h1]
  have h2 : x * (y * y) + x * x = x * y * y + x * x := by ring
  rw [h2, Nat.mul_add_div (by positivity : 0 < x * y)]
  congr 1
  exact Nat.mul_div_mul_left x y hx

/-- Region membership gives the quantitative bound used by the
monotonicity argument. -/
lemma region_bound {pnp x : ℕ} (h : verify_decreasing_region pnp x = true) :
    2 * x ^ 3 + 2 ≤ pnp ^ 2 := by
  have h1 : x ^ 3 < pnp ^ 2 / 2 := by
    simpa [verify_decreasing_region] using h
  have h2 : x ^ 3 + 1 ≤ pnp ^ 2 / 2 := h1
  have h3 : (x ^ 3 + 1) * 2 ≤ pnp ^ 2 := (Nat.le_div_iff_mul_le (by omega)).mp h2
  omega

/-- One step of antitonicity of the unfloored numerator
`pnp^2 // x + x * x` while `x + 1` is still in the decreasing region. -/
lemma numerator_antitone_step {pnp x : ℕ} (hx : 1 ≤ x)
    (h : 2 * (x + 1) ^ 3 + 2 ≤ pnp ^ 2) :
    pnp ^ 2 / (x + 1) + (x + 1) * (x + 1) ≤ pnp ^ 2 / x + x * x := by
  have hq : 2 * x * x + x ≤ pnp ^ 2 / (x + 1) := by
    rw [Nat.le_div_iff_mul_le (by omega : 0 < x + 1)]
    nlinarith
  have hqq : pnp ^ 2 / (x + 1) * (x + 1) ≤ pnp ^ 2 := Nat.div_mul_le_self _ _
  have hdiv : pnp ^ 2 / (x + 1) + (2 * x + 1) ≤ pnp ^ 2 / x := by
    rw [Nat.le_div_iff_mul_le (by omega : 0 < x)]
    calc (pnp ^ 2 / (x + 1) + (2 * x + 1)) * x
        = pnp ^ 2 / (x + 1) * x + (2 * x * x + x) := by ring
      _ ≤ pnp ^ 2 / (x + 1) * x + pnp ^ 2 / (x + 1) := Nat.add_le_add_left hq _
      _ = pnp ^ 2 / (x + 1) * (x + 1) := by ring
      _ ≤ pnp ^ 2 := hqq
  have hsq : (x + 1) * (x + 1) = x * x + (2 * x + 1) := by ring
  omega

/-- The decreasing region is downward closed. -/
lemma region_mono {pnp x x' : ℕ} (hle : x ≤ x')
    (h : verify_decreasing_region pnp x' = true) :
    verify_decreasing_region pnp x = true := by
  simp only [verify_decreasing_region, decide_eq_true_eq] at h ⊢
  exact lt_of_le_of_lt (Nat.pow_le_pow_left hle 3) h

/-- Antitonicity of `compute_y_from_x` on the decreasing region
(non-strict: the floor divisions can flatten consecutive values). -/
lemma compute_y_antitone {pnp x₁ x₂ : ℕ} (h1 : 1 ≤ x₁) (h12 : x₁ ≤ x₂)
    (hreg : verify_decreasing_region pnp x₂ = true) :
    compute_y_from_x pnp x₂ ≤ compute_y_from_x pnp x₁ := by
  induction x₂, h12 using Nat.le_induction with
  | base => exact le_rfl
  | succ m hm ih =>
    have hregm : verify_decreasing_region pnp m = true :=
      region_mono (Nat.le_succ m) hreg
    have hstep : compute_y_from_x pnp (m + 1) ≤ compute_y_from_x pnp m := by
      unfold compute_y_from_x
      exact Nat.div_le_div_right
        (numerator_antitone_step (le_trans h1 hm) (region_bound hreg))
    exact le_trans hstep (ih hregm)

/-- Claim C1 counterexample: at the square semiprime `N = 4 = 2 * 2` (so
`p = q = 2`, primes with `p ≤ q`) the equation gives
`compute_y_from_x 4 2 = 3`, not the larger factor `2`. -/
theorem c1_counterexample :
    Nat.Prime 2 ∧ (2 : ℕ) ≤ 2 ∧ (4 : ℕ) = 2 * 2 ∧
      compute_y_from_x 4 2 ≠ 2 := by
  refine ⟨by norm_num, le_rfl, by norm_num, ?_⟩
  decide

/-- Claim C1 (amended): for a semiprime `N = p * q` with `p` and `q` prime
and `p` STRICTLY smaller than `q`, the equation applied to the smaller
factor returns exactly the larger factor; at `p = q` it returns `q + 1`. -/
theorem c1_y_of_smaller_factor {p q : ℕ} (hp : Nat.Prime p)
    (hq : Nat.Prime q) (hpq : p < q) :
    compute_y_from_x (p * q) p = q := by
  have := compute_y_from_x_mul p q hp.pos hq.pos
  rwa [Nat.div_eq_of_lt hpq, Nat.add_zero] at this

/-- Witness for C1 at `p = 3`, `q = 5`. -/
theorem c1_y_of_smaller_factor_witness :
    Nat.Prime 3 ∧ Nat.Prime 5 ∧ 3 < 5 ∧ compute_y_from_x (3 * 5) 3 = 5 :=
  ⟨by norm_num, by norm_num, by norm_num,
    c1_y_of_smaller_factor (by norm_num) (by norm_num) (by norm_num)⟩

/-- Claim C2: for every `N ≥ 2` and factorization `N = x * y` with
`x, y ≥ 1`, `compute_y_from_x x = y + x / y` exactly, under floor
division. -/
theorem c2_equation_identity {n x y : ℕ} (hN : 2 ≤ n) (hxy : n = x * y)
    (hx : 1 ≤ x) (hy : 1 ≤ y) :
    compute_y_from_x n x = y + x / y := by
  subst hxy
  exact compute_y_from_x_mul x y hx hy

/-- Witness for C2 at `N = 15 = 3 * 5`. -/
theorem c2_equation_identity_witness :
    2 ≤ 15 ∧ (15 : ℕ) = 3 * 5 ∧ 1 ≤ 3 ∧ 1 ≤ 5 ∧
      compute_y_from_x 15 3 = 5 + 3 / 5 :=
  ⟨by norm_num, by norm_num, by norm_num, by norm_num,
    c2_equation_identity (by norm_num) (by norm_num) (by norm_num)
      (by norm_num)⟩

/-- Claim C3 counterexample: at `N = 100`, both `12` and `13` lie in the
decreasing region (`x^3 < 100^2 / 2 = 5000`), `12 < 13`, yet
`verify_inverse_relationship` returns `false` because the floored values
tie: `compute_y_from_x 100 12 = compute_y_from_x 100 13 = 9`. -/
theorem c3_counterexample :
    1 ≤ 12 ∧ 12 < 13 ∧
      verify_decreasing_region 100 12 = true ∧
      verify_decreasing_region 100 13 = true ∧
      verify_inverse_relationship 100 12 13 = false := by
  decide

/-- Claim C3 (amended): for `1 ≤ x₁ < x₂` both inside the decreasing
region, `compute_y_from_x` is monotone non-increasing,
`compute_y_from_x x₁ ≥ compute_y_from_x x₂`; strict decrease (what
`verify_inverse_relationship` tests) can fail on ties of the floored
values. -/
theorem c3_inverse_monotone {pnp x₁ x₂ : ℕ} (h1 : 1 ≤ x₁) (hlt : x₁ < x₂)
    (_hr1 : verify_decreasing_region pnp x₁ = true)
    (hr2 : verify_decreasing_region pnp x₂ = true) :
    compute_y_from_x pnp x₂ ≤ compute_y_from_x pnp x₁ :=
  compute_y_antitone h1 (le_of_lt hlt) hr2

/-- Witness for C3 at `N = 100`, `x₁ = 3`, `x₂ = 5`. -/
theorem c3_inverse_monotone_witness :
    1 ≤ 3 ∧ 3 < 5 ∧
      verify_decreasing_region 100 3 = true ∧
      verify_decreasing_region 100 5 = true ∧
      compute_y_from_x 100 5 ≤ compute_y_from_x 100 3 :=
  ⟨by norm_num, by norm_num, by decide, by decide,
    c3_inverse_monotone (by norm_num) (by norm_num) (by decide) (by decide)⟩

/-- Claim C4 counterexample: at `N = 100`, the exact value
`⌊(N^2/2)^(1/3)⌋ = ⌊5000^(1/3)⌋` is `17` (since `17^3 = 4913 ≤ 5000 <
5832 = 18^3`), but `find_critical_point_derivative` returns the decimal
order-of-magnitude approximation `10`. -/
theorem c4_counterexample :
    find_critical_point_derivative 100 = 10 ∧
      17 ^ 3 ≤ 100 ^ 2 / 2 ∧ 100 ^ 2 / 2 < 18 ^ 3 ∧
      find_critical_point_derivative 100 ≠ 17 := by
  refine ⟨?_, by norm_num, by norm_num, ?_⟩ <;> decide

/-- Claim C4 (amended): `find_critical_point_derivative` returns the power
of ten `10 ^ ((2*(digits-1) - 1) / 3)`, an order-of-magnitude
under-approximation of `(N^2/2)^(1/3)` rather than its exact floor; for
every `N ≥ 10` the returned point lies strictly inside the decreasing
region (`verify_decreasing_region` accepts it). -/
theorem c4_critical_point_in_region {pnp : ℕ} (h : 10 ≤ pnp) :
    verify_decreasing_region pnp (find_critical_point_derivative pnp)
      = true := by
  have hL : 1 ≤ Nat.log 10 pnp := by
    have h1 : Nat.log 10 10 ≤ Nat.log 10 pnp := Nat.log_mono_right h
    have h2 : Nat.log 10 10 = 1 := by
      rw [Nat.log_eq_one_iff]
      norm_num
    omega
  set L := Nat.log 10 pnp with hLdef
  have hd : numDigits pnp - 1 = L := by
    rw [numDigits_eq_log]
    omega
  set e := (2 * L - 1) / 3 with hedef
  have he : 3 * e ≤ 2 * L - 1 := by
    have h' := Nat.div_mul_le_self (2 * L - 1) 3
    omega
  have hcube : (10 : ℕ) ^ (3 * e) ≤ 10 ^ (2 * L - 1) :=
    Nat.pow_le_pow_right (by norm_num) he
  have hpow : (10 : ℕ) ^ L ≤ pnp := Nat.pow_log_le_self 10 (by omega)
  have hsq : (10 : ℕ) ^ (2 * L) ≤ pnp ^ 2 := by
    calc (10 : ℕ) ^ (2 * L) = (10 ^ L) ^ 2 := by rw [← pow_mul, Nat.mul_comm]
      _ ≤ pnp ^ 2 := Nat.pow_le_pow_left hpow 2
  have hsplit : (10 : ℕ) ^ (2 * L) = 10 * 10 ^ (2 * L - 1) := by
    have h2L : 1 ≤ 2 * L := by omega
    rw [← pow_succ']
    congr 1
    omega
  have hmain : 10 * 10 ^ (3 * e) ≤ pnp ^ 2 := by
    calc 10 * 10 ^ (3 * e) ≤ 10 * 10 ^ (2 * L - 1) :=
          Nat.mul_le_mul_left 10 hcube
      _ = 10 ^ (2 * L) := hsplit.symm
      _ ≤ pnp ^ 2 := hsq
  have hxcube : (10 ^ e : ℕ) ^ 3 = 10 ^ (3 * e) := by
    rw [← pow_mul, Nat.mul_comm]
  simp only [verify_decreasing_region, find_critical_point_derivative,
    decide_eq_true_eq, hd]
  rw [← hedef, hxcube]
  have hpos : 1 ≤ (10 : ℕ) ^ (3 * e) := Nat.one_le_pow _ _ (by norm_num)
  have : (10 ^ (3 * e) + 1) * 2 ≤ pnp ^ 2 := by omega
  have := (Nat.le_div_iff_mul_le (by omega : 0 < 2)).mpr this
  omega

/-- Witness for C4 at `N = 100`. -/
theorem c4_critical_point_in_region_witness :
    10 ≤ 100 ∧
      verify_decreasing_region 100 (find_critical_point_derivative 100)
        = true :=
  ⟨by norm_num, c4_critical_point_in_region (by norm_num)⟩

end SemiprimeEquation

namespace PollardRho

/-- Outcome of the Brent iteration loop in `pollard_rho`. -/
inductive RhoOutcome where
  | found (d : ℕ)
  | exhausted
  | restart
deriving DecidableEq

/-- Factor test at the end of each loop iteration: `d = 1` keeps
iterating (`next`), `d = n` forces a restart, anything else is a found
factor. -/
def rhoTest (n d : ℕ) (next : RhoOutcome) : RhoOutcome :=
  if d = 1 then next
  else if d = n then .restart
  else .found d

/-- Embedding of the iteration loop of `pollard_rho` (Brent cycle
detection).  One fuel unit per loop iteration (`max_iterations` in the
source); state is `(x, y, power, lam)`.  Each iteration first resets
`y, power, lam` when `power == lam`, then advances
`x = (powmod(x, 2, n) + c) % n`, increments `lam` and tests
`d = gcd(|x - y|, n)`: the loop returns the factor when `1 < d < n`,
restarts when `d = n`, and keeps iterating when `d = 1`. -/
def rhoLoop (n c : ℕ) : ℕ → ℕ → ℕ → ℕ → ℕ → RhoOutcome
  | 0, _, _, _, _ => .exhausted
  | fuel + 1, x, y, power, lam =>
    let y' := if power = lam then x else y
    let power' := if power = lam then power * 2 else power
    let lam' := if power = lam then 0 else lam
    let x' := (x * x % n + c) % n
    rhoTest n (Nat.gcd (if y' ≤ x' then x' - y' else y' - x') n)
      (rhoLoop n c fuel x' y' power' (lam' + 1))

/-- Embedding of `pollard_rho`.  Randomness is explicit: `rnds` supplies
the successive random draws `(x0, c)`; a restart (`d = n`) consumes the
next draw and halves the iteration budget, exactly as the recursive call
`pollard_rho(n, max_iterations // 2)` in the source.  An exhausted draw
list returns `None` (the source can always draw; this models a finite
observation of its randomness and never fabricates a factor). -/
def pollard_rho (rnds : List (ℕ × ℕ)) (n maxIterations : ℕ) : Option ℕ :=
  if n % 2 = 0 then some 2
  else if Nat.Prime n then none
  else
    match rnds with
    | [] => none
    | (x0, c) :: rest =>
      match rhoLoop n c maxIterations x0 x0 1 1 with
      | .found d => some d
      | .restart => pollard_rho rest n (maxIterations / 2)
      | .exhausted => none

/-- Inversion for `rhoTest`: a found factor is either propagated from the
continuation or is the tested gcd, then known to avoid `1` and `n`. -/
lemma rhoTest_found {n g d : ℕ} {next : RhoOutcome}
    (h : rhoTest n g next = .found d) :
    next = .found d ∨ (d = g ∧ g ≠ 1 ∧ g ≠ n) := by
  unfold rhoTest at h
  split at h
  · exact Or.inl h
  · split at h
    · simp at h
    · rename_i h1 h2
      cases h
      exact Or.inr ⟨rfl, h1, h2⟩

lemma rhoLoop_found {n c : ℕ} :
    ∀ {fuel x y power lam d}, rhoLoop n c fuel x y power lam = .found d →
      d ∣ n ∧ d ≠ 1 ∧ d ≠ n := by
  intro fuel
  induction fuel with
  | zero => intro x y power lam d h; exact absurd h (by simp [rhoLoop])
  | succ f ih =>
    intro x y power lam d h
    simp only [rhoLoop] at h
    rcases rhoTest_found h with hnext | ⟨rfl, h1, h2⟩
    · exact ih hnext
    · exact ⟨Nat.gcd_dvd_right _ n, h1, h2⟩

/-- Claim C6 counterexample: the claim quantifies over every `n ≥ 2`, but
at `n = 2` (even) the immediate answer is `2 = n`, which is not a
non-trivial factor (`1 < f < n` fails). -/
theorem c6_counterexample :
    2 ≤ 2 ∧ pollard_rho [] 2 1000000 = some 2 ∧ ¬(1 < 2 ∧ 2 < 2) := by
  refine ⟨le_rfl, ?_, by omega⟩
  decide

/-- Claim C6 (amended): for every `n ≥ 3`, any factor that `pollard_rho`
returns divides `n` and is non-trivial (`1 < f < n`); and every even `n`
is answered with `2` immediately (for `n = 2` that answer equals `n`
itself, which is why `n = 2` must be excluded from the non-triviality
statement). -/
theorem c6_pollard_rho_safe :
    (∀ (rnds : List (ℕ × ℕ)) (n maxIterations f : ℕ), 3 ≤ n →
        pollard_rho rnds n maxIterations = some f →
        f ∣ n ∧ 1 < f ∧ f < n) ∧
      (∀ (rnds : List (ℕ × ℕ)) (n maxIterations : ℕ), n % 2 = 0 →
        pollard_rho rnds n maxIterations = some 2) := by
  constructor
  · intro rnds
    induction rnds with
    | nil =>
      intro n maxIterations f hn h
      rw [pollard_rho] at h
      by_cases he : n % 2 = 0
      · simp only [he, if_true, Option.some.injEq] at h
        subst h
        exact ⟨Nat.dvd_of_mod_eq_zero he, by omega, by omega⟩
      · by_cases hp : Nat.Prime n <;> simp [he, hp] at h
    | cons hd tl ih =>
      intro n maxIterations f hn h
      rw [pollard_rho] at h
      by_cases he : n % 2 = 0
      · simp only [he, if_true, Option.some.injEq] at h
        subst h
        exact ⟨Nat.dvd_of_mod_eq_zero he, by omega, by omega⟩
      · by_cases hp : Nat.Prime n
        · simp [he, hp] at h
        · simp only [he, if_false, hp] at h
          obtain ⟨x0, c⟩ := hd
          rcases hloop : rhoLoop n c maxIterations x0 x0 1 1 with d | _ | _ <;>
            rw [hloop] at h
          · have h' : some d = some f := h
            have hdf : d = f := by injection h'
            subst hdf
            have hfound := rhoLoop_found hloop
            obtain ⟨hdvd, hne1, hnen⟩ := hfound
            have hdpos : 0 < d := Nat.pos_of_dvd_of_pos hdvd (by omega)
            have hdle : d ≤ n := Nat.le_of_dvd (by omega) hdvd
            exact ⟨hdvd, by omega, by omega⟩
          · have h' : (none : Option ℕ) = some f := h
            simp at h'
          · exact ih n (maxIterations / 2) f hn h
  · intro rnds n maxIterations he
    cases rnds with
    | nil => simp [pollard_rho, he]
    | cons hd tl => simp [pollard_rho, he]

/-- Witness for C6: `n = 15` with draws `(x0, c) = (2, 1)` finds the
divisor `3` inside the loop, and even `n = 4` answers `2`. -/
theorem c6_pollard_rho_safe_witness :
    (3 ≤ 15 ∧ pollard_rho [(2, 1)] 15 20 = some 3 ∧
        (3 : ℕ) ∣ 15 ∧ 1 < 3 ∧ 3 < 15) ∧
      (4 % 2 = 0 ∧ pollard_rho [] 4 7 = some 2) :=
  ⟨⟨by norm_num, by decide,
      c6_pollard_rho_safe.1 [(2, 1)] 15 20 3 (by norm_num) (by decide)⟩,
    by norm_num, c6_pollard_rho_safe.2 [] 4 7 (by norm_num)⟩

end PollardRho

namespace ShorClassical

/-- Modular exponentiation, the `gmpy2.powmod` library primitive. -/
def powmod (a e n : ℕ) : ℕ := a ^ e % n

/-- Functional state of the Eratosthenes array `sieve` in
`generate_primes_up_to`: `sieve[j]` for `j ≤ limit` (initially `True`
except indices `0` and `1`). -/
def sieveInit (limit : ℕ) : ℕ → Bool :=
  fun j => decide (2 ≤ j) && decide (j ≤ limit)

/-- Effect of the inner marking loop
`for j in range(i*i, limit+1, i): sieve[j] = False`. -/
def sieveMark (limit i : ℕ) (s : ℕ → Bool) (j : ℕ) : Bool :=
  if i * i ≤ j ∧ j ≤ limit ∧ i ∣ j then false else s j

/-- One iteration of the outer loop: mark multiples of `i` only when
`sieve[i]` is still set. -/
def sieveStep (limit : ℕ) (s : ℕ → Bool) (i : ℕ) : ℕ → Bool :=
  fun j => if s i then sieveMark limit i s j else s j

/-- Fuel-driven integer square root (upward search), used to render
`int(limit**0.5)`, which is the exact integer square root at the
smoothness bounds used by the repository. -/
def isqrtAux (limit : ℕ) : ℕ → ℕ → ℕ
  | 0, k => k
  | fuel + 1, k =>
    if (k + 1) * (k + 1) ≤ limit then isqrtAux limit fuel (k + 1) else k

def isqrt (limit : ℕ) : ℕ := isqrtAux limit limit 0

lemma isqrtAux_spec (limit : ℕ) :
    ∀ fuel k, k * k ≤ limit → limit ≤ fuel + k →
      isqrtAux limit fuel k * isqrtAux limit fuel k ≤ limit ∧
        limit < (isqrtAux limit fuel k + 1) * (isqrtAux limit fuel k + 1) := by
  intro fuel
  induction fuel with
  | zero =>
    intro k hk hfuel
    rw [isqrtAux]
    exact ⟨hk, by nlinarith⟩
  | succ f ih =>
    intro k hk hfuel
    rw [isqrtAux]
    split
    · rename_i hnext
      exact ih (k + 1) hnext (by omega)
    · rename_i hnext
      exact ⟨hk, by omega⟩

/-- The fuel-driven search computes the integer square root. -/
lemma isqrt_eq_sqrt (limit : ℕ) : isqrt limit = Nat.sqrt limit := by
  have h := isqrtAux_spec limit limit 0 (by omega) (by omega)
  exact Nat.eq_sqrt.mpr ⟨h.1, h.2⟩

/-- Final sieve state after the outer loop
`for i in range(2, int(limit**0.5) + 1)`. -/
def sieveFinal (limit : ℕ) : ℕ → Bool :=
  (List.range' 2 (isqrt limit - 1)).foldl (sieveStep limit) (sieveInit limit)

/-- Embedding of `generate_primes_up_to`:
`[i for i in range(2, limit + 1) if sieve[i]]`, empty below `2`. -/
def generate_primes_up_to (limit : ℕ) : List ℕ :=
  if limit < 2 then []
  else (List.range' 2 (limit - 1)).filter (sieveFinal limit)

/-- Largest-exponent search of `build_smooth_exponent`:
`e = 1; while q ** (e + 1) <= B: e += 1` (fuel-driven rendering of the
while loop; `largestExp` supplies ample fuel). -/
def largestExpAux (q B : ℕ) : ℕ → ℕ → ℕ
  | 0, e => e
  | fuel + 1, e => if q ^ (e + 1) ≤ B then largestExpAux q B fuel (e + 1) else e

def largestExp (q B : ℕ) : ℕ := largestExpAux q B B 1

/-- Embedding of `build_smooth_exponent`:
`M = ∏_{q prime ≤ B} q ^ (largest e with q^e ≤ B)`. -/
def build_smooth_exponent (B : ℕ) : ℕ :=
  (generate_primes_up_to B).foldl (fun M q => M * q ^ largestExp q B) 1

/-- Inner squeeze loop of `find_order_classical` for one prime `q`:
`while M % q == 0: M_reduced = M // q; if powmod(a, M_reduced, n) == 1:
M = M_reduced else: break`.  Fuel-driven; `reduceByPrime` supplies fuel
`M`, which always suffices for `q ≥ 2`. -/
def reduceByPrimeAux (a n q : ℕ) : ℕ → ℕ → ℕ
  | 0, M => M
  | fuel + 1, M =>
    if q ∣ M ∧ powmod a (M / q) n = 1 then reduceByPrimeAux a n q fuel (M / q)
    else M

def reduceByPrime (a n q M : ℕ) : ℕ := reduceByPrimeAux a n q M M

/-- Embedding of `find_order_classical`: build the smooth exponent `M`,
fail unless `a^M ≡ 1 (mod n)`, then squeeze `M` prime by prime and return
it after the final `powmod(a, r, n) == 1` re-check. -/
def find_order_classical (a n B : ℕ) : Option ℕ :=
  let M := build_smooth_exponent B
  if powmod a M n ≠ 1 then none
  else
    let r := (generate_primes_up_to B).foldl (fun M q => reduceByPrime a n q M) M
    if powmod a r n = 1 then some r else none

/-- Marking never resurrects an entry: a false entry stays false through
each outer-loop step. -/
lemma sieveStep_false {limit : ℕ} {s : ℕ → Bool} {j : ℕ} (i : ℕ)
    (h : s j = false) : sieveStep limit s i j = false := by
  simp only [sieveStep, sieveMark]
  split
  · split
    · rfl
    · exact h
  · exact h

lemma foldl_sieveStep_false {limit : ℕ} {j : ℕ} :
    ∀ (L : List ℕ) (s : ℕ → Bool), s j = false →
      (L.foldl (sieveStep limit) s) j = false := by
  intro L
  induction L with
  | nil => intro s h; exact h
  | cons i tl ih => intro s h; exact ih _ (sieveStep_false i h)

/-- Primes with at least one pivot bound are never marked: the pivot `i`
is at least `2` and divides only its proper multiples `≥ i * i`. -/
lemma sieveStep_prime_true {limit i p : ℕ} (hi : 2 ≤ i) (hp : Nat.Prime p)
    {s : ℕ → Bool} (h : s p = true) : sieveStep limit s i p = true := by
  simp only [sieveStep, sieveMark]
  split
  · split
    · rename_i hcond
      obtain ⟨hii, _, hdvd⟩ := hcond
      rcases (Nat.Prime.eq_one_or_self_of_dvd hp i hdvd) with h1 | h1
      · omega
      · subst h1
        nlinarith [hp.two_le]
    · exact h
  · exact h

lemma foldl_sieveStep_prime_true {limit p : ℕ} (hp : Nat.Prime p) :
    ∀ (L : List ℕ) (s : ℕ → Bool), (∀ i ∈ L, 2 ≤ i) → s p = true →
      (L.foldl (sieveStep limit) s) p = true := by
  intro L
  induction L with
  | nil => intro s _ h; exact h
  | cons i tl ih =>
    intro s hL h
    exact ih _ (fun j hj => hL j (List.mem_cons_of_mem i hj))
      (sieveStep_prime_true (hL i (List.mem_cons_self i tl)) hp h)

/-- If a prime `p` occurs among the pivots with `s p` still set, every
multiple `j` of `p` with `p * p ≤ j ≤ limit` ends up marked false. -/
lemma foldl_sieveStep_marks {limit p j : ℕ} (hp : Nat.Prime p)
    (hpj : p * p ≤ j) (hjl : j ≤ limit) (hdvd : p ∣ j) :
    ∀ (L : List ℕ) (s : ℕ → Bool), (∀ i ∈ L, 2 ≤ i) → p ∈ L → s p = true →
      (L.foldl (sieveStep limit) s) j = false := by
  intro L
  induction L with
  | nil => intro s _ hmem _; exact absurd hmem (List.not_mem_nil p)
  | cons i tl ih =>
    intro s hL hmem htrue
    rcases List.mem_cons.mp hmem with heq | htl
    · subst heq
      rw [List.foldl_cons]
      apply foldl_sieveStep_false
      simp only [sieveStep, sieveMark, htrue]
      rw [if_pos trivial, if_pos ⟨hpj, hjl, hdvd⟩]
    · exact ih _ (fun k hk => hL k (List.mem_cons_of_mem i hk)) htl
        (sieveStep_prime_true (hL i (List.mem_cons_self i tl)) hp htrue)

/-- Soundness of the sieve: every number the embedded
`generate_primes_up_to` returns is prime. -/
lemma generate_primes_prime {limit q : ℕ}
    (h : q ∈ generate_primes_up_to limit) : Nat.Prime q := by
  unfold generate_primes_up_to at h
  split at h
  · exact absurd h (List.not_mem_nil q)
  · rename_i hlim
    obtain ⟨hmem, hs⟩ := List.mem_filter.mp h
    have hql : 2 ≤ q ∧ q < 2 + (limit - 1) := by
      have := List.mem_range'_1.mp hmem
      exact this
    by_contra hnp
    have hq2 : 2 ≤ q := hql.1
    have hqlim : q ≤ limit := by omega
    set p := Nat.minFac q with hpdef
    have hpp : Nat.Prime p := Nat.minFac_prime (by omega)
    have hpd : p ∣ q := Nat.minFac_dvd q
    have hpsq : p * p ≤ q := by
      have h2 := Nat.minFac_sq_le_self (by omega : 0 < q) hnp
      nlinarith [h2]
    have hple : p ≤ isqrt limit := by
      rw [isqrt_eq_sqrt, Nat.le_sqrt]
      omega
    have hp2 : 2 ≤ p := hpp.two_le
    have h1sqrt : 2 ≤ isqrt limit := by omega
    have hpmem : p ∈ List.range' 2 (isqrt limit - 1) := by
      rw [List.mem_range'_1]
      exact ⟨hp2, by omega⟩
    have hfalse : sieveFinal limit q = false := by
      unfold sieveFinal
      apply foldl_sieveStep_marks hpp hpsq hqlim hpd
      · intro i hi
        exact (List.mem_range'_1.mp hi).1
      · exact hpmem
      · have hplim : p ≤ limit := by
          rw [isqrt_eq_sqrt] at hple
          exact le_trans hple (Nat.sqrt_le_self limit)
        simp [sieveInit, hp2, hplim]
    rw [hs] at hfalse
    exact Bool.true_eq_false.mp hfalse

/-- Membership bound for the sieve output. -/
lemma generate_primes_le {limit q : ℕ}
    (h : q ∈ generate_primes_up_to limit) : q ≤ limit := by
  unfold generate_primes_up_to at h
  split at h
  · exact absurd h (List.not_mem_nil q)
  · rename_i hlim
    obtain ⟨hmem, _⟩ := List.mem_filter.mp h
    have := List.mem_range'_1.mp hmem
    omega

end ShorClassical

namespace ShorClassical

/-- A reduced exponent always divides its input. -/
lemma reduceByPrimeAux_dvd (a n q : ℕ) :
    ∀ fuel M, reduceByPrimeAux a n q fuel M ∣ M := by
  intro fuel
  induction fuel with
  | zero => intro M; simp [reduceByPrimeAux]
  | succ f ih =>
    intro M
    rw [reduceByPrimeAux]
    split
    · rename_i hcond
      exact dvd_trans (ih (M / q)) ⟨q, (Nat.div_mul_cancel hcond.1).symm⟩
    · exact dvd_rfl

lemma reduceByPrimeAux_pos {a n q : ℕ} (hq : 2 ≤ q) :
    ∀ fuel M, 0 < M → 0 < reduceByPrimeAux a n q fuel M := by
  intro fuel
  induction fuel with
  | zero => intro M hM; simpa [reduceByPrimeAux] using hM
  | succ f ih =>
    intro M hM
    rw [reduceByPrimeAux]
    split
    · rename_i hcond
      exact ih (M / q) (Nat.div_pos (Nat.le_of_dvd hM hcond.1) (by omega))
    · exact hM

/-- Reduction preserves the invariant `a^M ≡ 1 (mod n)` because a step is
taken only after checking `powmod(a, M/q, n) == 1`. -/
lemma reduceByPrimeAux_pow_one {a n q : ℕ} :
    ∀ fuel M, a ^ M % n = 1 →
      a ^ reduceByPrimeAux a n q fuel M % n = 1 := by
  intro fuel
  induction fuel with
  | zero => intro M hM; simpa [reduceByPrimeAux] using hM
  | succ f ih =>
    intro M hM
    rw [reduceByPrimeAux]
    split
    · rename_i hcond
      exact ih (M / q) hcond.2
    · exact hM

/-- With sufficient fuel the returned value is genuinely irreducible: the
while-loop guard fails on it. -/
lemma reduceByPrimeAux_exit {a n q : ℕ} (hq : 2 ≤ q) :
    ∀ fuel M, 0 < M → M ≤ fuel →
      ¬(q ∣ reduceByPrimeAux a n q fuel M ∧
        a ^ (reduceByPrimeAux a n q fuel M / q) % n = 1) := by
  intro fuel
  induction fuel with
  | zero => intro M hM hle; omega
  | succ f ih =>
    intro M hM hle
    rw [reduceByPrimeAux]
    split
    · rename_i hcond
      have hlt : M / q < M := Nat.div_lt_self hM (by omega)
      exact ih (M / q) (Nat.div_pos (Nat.le_of_dvd hM hcond.1) (by omega))
        (by omega)
    · rename_i hcond
      intro hcontra
      exact hcond ⟨hcontra.1, hcontra.2⟩

lemma reduceByPrime_dvd (a n q M : ℕ) : reduceByPrime a n q M ∣ M :=
  reduceByPrimeAux_dvd a n q M M

lemma reduceByPrime_pos {a n q : ℕ} (hq : 2 ≤ q) {M : ℕ} (hM : 0 < M) :
    0 < reduceByPrime a n q M :=
  reduceByPrimeAux_pos hq M M hM

lemma reduceByPrime_pow_one {a n q M : ℕ} (hM : a ^ M % n = 1) :
    a ^ reduceByPrime a n q M % n = 1 :=
  reduceByPrimeAux_pow_one M M hM

lemma reduceByPrime_exit {a n q : ℕ} (hq : 2 ≤ q) {M : ℕ} (hM : 0 < M) :
    ¬(q ∣ reduceByPrime a n q M ∧
      a ^ (reduceByPrime a n q M / q) % n = 1) :=
  reduceByPrimeAux_exit hq M M hM le_rfl

/-- Quotients of divisors divide quotients. -/
lemma div_dvd_div_of_dvd {a b c : ℕ} (hc : 0 < c) (hcb : c ∣ b)
    (hba : b ∣ a) : b / c ∣ a / c := by
  obtain ⟨s, rfl⟩ := hcb
  obtain ⟨t, rfl⟩ := hba
  rw [Nat.mul_div_cancel_left _ hc, Nat.mul_assoc,
    Nat.mul_div_cancel_left _ hc]
  exact Dvd.intro t rfl

/-- The relation `a^s ≡ 1 (mod n)` propagates to multiples of the
exponent. -/
lemma pow_mod_one_of_dvd {a n : ℕ} (hn : 2 ≤ n) {s t : ℕ} (hst : s ∣ t)
    (h : a ^ s % n = 1) : a ^ t % n = 1 := by
  obtain ⟨c, rfl⟩ := hst
  rw [pow_mul, Nat.pow_mod, h, one_pow]
  exact Nat.mod_eq_of_lt (by omega)

/-- The whole squeeze fold divides its input exponent. -/
lemma reduceAll_dvd (a n : ℕ) :
    ∀ (L : List ℕ) (M : ℕ),
      L.foldl (fun M q => reduceByPrime a n q M) M ∣ M := by
  intro L
  induction L with
  | nil => intro M; exact dvd_rfl
  | cons q tl ih =>
    intro M
    exact dvd_trans (ih (reduceByPrime a n q M)) (reduceByPrime_dvd a n q M)

lemma reduceAll_pos (a n : ℕ) :
    ∀ (L : List ℕ) (M : ℕ), (∀ q ∈ L, 2 ≤ q) → 0 < M →
      0 < L.foldl (fun M q => reduceByPrime a n q M) M := by
  intro L
  induction L with
  | nil => intro M _ hM; exact hM
  | cons q tl ih =>
    intro M hL hM
    exact ih _ (fun k hk => hL k (List.mem_cons_of_mem q hk))
      (reduceByPrime_pos (hL q (List.mem_cons_self q tl)) hM)

lemma reduceAll_pow_one (a n : ℕ) :
    ∀ (L : List ℕ) (M : ℕ), a ^ M % n = 1 →
      a ^ (L.foldl (fun M q => reduceByPrime a n q M) M) % n = 1 := by
  intro L
  induction L with
  | nil => intro M hM; exact hM
  | cons q tl ih => intro M hM; exact ih _ (reduceByPrime_pow_one hM)

/-- No listed prime can be squeezed out of the final value: the greedy
loop for `q` exited with the guard false, and later reductions cannot
reopen it (if `a^(R/q) ≡ 1` held for the final `R` it would propagate up
to the value `M₁` at the time `q` was processed). -/
lemma reduceAll_no_reduction {a n : ℕ} (hn : 2 ≤ n) :
    ∀ (L : List ℕ) (M : ℕ), (∀ q ∈ L, Nat.Prime q) → 0 < M →
      a ^ M % n = 1 →
      ∀ q ∈ L, q ∣ (L.foldl (fun M q => reduceByPrime a n q M) M) →
        a ^ ((L.foldl (fun M q => reduceByPrime a n q M) M) / q) % n
          ≠ 1 := by
  intro L
  induction L with
  | nil => intro M _ _ _ q hq; exact absurd hq (List.not_mem_nil q)
  | cons q0 tl ih =>
    intro M hL hM hone q hq hdvd
    have hq0p : Nat.Prime q0 := hL q0 (List.mem_cons_self q0 tl)
    have hq02 : 2 ≤ q0 := hq0p.two_le
    have hM1pos : 0 < reduceByPrime a n q0 M := reduceByPrime_pos hq02 hM
    have hM1one : a ^ reduceByPrime a n q0 M % n = 1 :=
      reduceByPrime_pow_one hone
    rcases List.mem_cons.mp hq with heq | htl
    · subst heq
      have hRdvd : (tl.foldl (fun M q => reduceByPrime a n q M)
          (reduceByPrime a n q M)) ∣ reduceByPrime a n q M :=
        reduceAll_dvd a n tl _
      have hqM1 : q ∣ reduceByPrime a n q M := dvd_trans hdvd hRdvd
      have hexit := reduceByPrime_exit (a := a) (n := n) (q := q)
        hq0p.two_le hM
      have hM1ne : a ^ (reduceByPrime a n q M / q) % n ≠ 1 :=
        fun hcon => hexit ⟨hqM1, hcon⟩
      intro hcon
      apply hM1ne
      exact pow_mod_one_of_dvd hn
        (div_dvd_div_of_dvd (by omega) hdvd hRdvd) hcon
    · exact ih _ (fun k hk => hL k (List.mem_cons_of_mem q0 hk)) hM1pos
        hM1one q htl hdvd

/-- The smooth exponent is positive. -/
lemma foldl_mul_pow_pos (B : ℕ) :
    ∀ (L : List ℕ) (M : ℕ), (∀ q ∈ L, 0 < q) → 0 < M →
      0 < L.foldl (fun M q => M * q ^ largestExp q B) M := by
  intro L
  induction L with
  | nil => intro M _ hM; exact hM
  | cons q tl ih =>
    intro M hL hM
    exact ih _ (fun k hk => hL k (List.mem_cons_of_mem q hk))
      (Nat.mul_pos hM (Nat.pos_pow_of_pos _ (hL q (List.mem_cons_self q tl))))

lemma build_smooth_exponent_pos (B : ℕ) : 0 < build_smooth_exponent B := by
  unfold build_smooth_exponent
  exact foldl_mul_pow_pos B _ 1
    (fun q hq => (generate_primes_prime hq).pos) one_pos

/-- Every prime divisor of the running product is either a divisor of the
seed or one of the multiplied primes. -/
lemma prime_dvd_foldl_mul_pow {B p : ℕ} (hp : Nat.Prime p) :
    ∀ (L : List ℕ) (M : ℕ), (∀ q ∈ L, Nat.Prime q) →
      p ∣ L.foldl (fun M q => M * q ^ largestExp q B) M →
      p ∣ M ∨ p ∈ L := by
  intro L
  induction L with
  | nil => intro M _ h; exact Or.inl h
  | cons q tl ih =>
    intro M hL h
    rcases ih _ (fun k hk => hL k (List.mem_cons_of_mem q hk)) h with
      hMq | htl
    · rcases (Nat.Prime.dvd_mul hp).mp hMq with hdM | hdq
      · exact Or.inl hdM
      · have hq : Nat.Prime q := hL q (List.mem_cons_self q tl)
        have : p = q :=
          (Nat.prime_dvd_prime_iff_eq hp hq).mp (hp.dvd_of_dvd_pow hdq)
        exact Or.inr (this ▸ List.mem_cons_self q tl)
    · exact Or.inr (List.mem_cons_of_mem q htl)

/-- Every prime divisor of the smooth exponent appears in the prime
list. -/
lemma prime_dvd_build_smooth {B p : ℕ} (hp : Nat.Prime p)
    (h : p ∣ build_smooth_exponent B) : p ∈ generate_primes_up_to B := by
  unfold build_smooth_exponent at h
  rcases prime_dvd_foldl_mul_pow hp _ 1
      (fun q hq => generate_primes_prime hq) h with h1 | h1
  · rw [Nat.dvd_one] at h1
    exact absurd (h1 ▸ hp) Nat.not_prime_one
  · exact h1

/-- Bridge between the `Nat` computation and `ZMod n`:
`a^k % n = 1` is `(a : ZMod n)^k = 1` once `n ≥ 2`. -/
lemma pow_mod_eq_one_iff {n : ℕ} (hn : 2 ≤ n) (a k : ℕ) :
    a ^ k % n = 1 ↔ ((a : ZMod n)) ^ k = 1 := by
  have h1 : ((a : ZMod n)) ^ k = ((a ^ k : ℕ) : ZMod n) := by push_cast; ring
  rw [h1, show (1 : ZMod n) = ((1 : ℕ) : ZMod n) by norm_cast,
    ZMod.natCast_eq_natCast_iff]
  unfold Nat.ModEq
  rw [Nat.mod_eq_of_lt (by omega : 1 < n)]

/-- Claim C5: whenever `find_order_classical a n B` returns `r`, that `r`
is the multiplicative order of `a` modulo `n`: `a^r ≡ 1 (mod n)` and no
smaller positive exponent has that property. -/
theorem c5_find_order_is_multiplicative_order {a n B r : ℕ} (hn : 2 ≤ n)
    (_hB : 2 ≤ B) (h : find_order_classical a n B = some r) :
    0 < r ∧ a ^ r % n = 1 ∧ ∀ s, 0 < s → s < r → a ^ s % n ≠ 1 := by
  simp only [find_order_classical, powmod] at h
  split at h
  · exact absurd h (by simp)
  · rename_i hM1
    have hMone : a ^ build_smooth_exponent B % n = 1 := by
      push_neg at hM1
      exact hM1
    split at h
    · rename_i hr1
      have hrR : (generate_primes_up_to B).foldl
          (fun M q => reduceByPrime a n q M) (build_smooth_exponent B)
            = r := by
        injection h
      set R := (generate_primes_up_to B).foldl
        (fun M q => reduceByPrime a n q M) (build_smooth_exponent B)
        with hRdef
      have hL2 : ∀ q ∈ generate_primes_up_to B, 2 ≤ q :=
        fun q hq => (generate_primes_prime hq).two_le
      have hRpos : 0 < R :=
        reduceAll_pos a n _ _ hL2 (build_smooth_exponent_pos B)
      have hRone : a ^ R % n = 1 := reduceAll_pow_one a n _ _ hMone
      have hRdvdM : R ∣ build_smooth_exponent B := reduceAll_dvd a n _ _
      have hu : ((a : ZMod n)) ^ R = 1 := (pow_mod_eq_one_iff hn a R).mp hRone
      have hfin : IsOfFinOrder (a : ZMod n) :=
        isOfFinOrder_iff_pow_eq_one.mpr ⟨R, hRpos, hu⟩
      have hd0 : 0 < orderOf (a : ZMod n) := hfin.orderOf_pos
      have hdR : orderOf (a : ZMod n) ∣ R := orderOf_dvd_of_pow_eq_one hu
      have hdeq : orderOf (a : ZMod n) = R := by
        by_contra hne
        obtain ⟨m, hm⟩ := hdR
        have hm1 : m ≠ 1 := by
          intro h1
          rw [h1, Nat.mul_one] at hm
          exact hne hm.symm
        obtain ⟨qp, hqp, hqpm⟩ := Nat.exists_prime_and_dvd hm1
        have hqpR : qp ∣ R := hm ▸ Dvd.dvd.mul_left hqpm _
        have hqpM : qp ∣ build_smooth_exponent B :=
          dvd_trans hqpR hRdvdM
        have hqpL : qp ∈ generate_primes_up_to B :=
          prime_dvd_build_smooth hqp hqpM
        have hnored := reduceAll_no_reduction hn (generate_primes_up_to B)
          (build_smooth_exponent B)
          (fun q hq => generate_primes_prime hq)
          (build_smooth_exponent_pos B) hMone qp hqpL hqpR
        apply hnored
        rw [pow_mod_eq_one_iff hn]
        apply orderOf_dvd_iff_pow_eq_one.mp
        obtain ⟨m1, hm1'⟩ := hqpm
        show orderOf (a : ZMod n) ∣ R / qp
        refine ⟨m1, ?_⟩
        rw [hm, hm1', Nat.mul_comm qp m1, ← Nat.mul_assoc,
          Nat.mul_div_cancel _ hqp.pos]
      subst hrR
      refine ⟨hRpos, hRone, ?_⟩
      intro s hs hsR hcon
      have hds : orderOf (a : ZMod n) ∣ s :=
        orderOf_dvd_of_pow_eq_one ((pow_mod_eq_one_iff hn a s).mp hcon)
      have : orderOf (a : ZMod n) ≤ s := Nat.le_of_dvd hs hds
      omega
    · exact absurd h (by simp)

/-- Witness for C5: base `2`, modulus `7`, bound `3`.  The smooth exponent
is `M = 6`, `2^6 ≡ 1 (mod 7)`, and the squeeze reduces `6 → 3` and stops,
returning the true order `3` of `2` modulo `7`. -/
theorem c5_find_order_witness :
    0 < 3 ∧ 2 ^ 3 % 7 = 1 ∧ ∀ s, 0 < s → s < 3 → 2 ^ s % 7 ≠ 1 :=
  c5_find_order_is_multiplicative_order (a := 2) (n := 7) (B := 3)
    (by norm_num) (by norm_num) (by decide)

end ShorClassical

namespace Certificate

/-- Proof steps of `PrimalityCertificate` (the JSON step dictionaries of
the source, keyed by their `type` field). -/
inductive CertStep where
  | small_prime (n : ℕ)
  | pocklington (n witness F R : ℕ) (factorsF : List ℕ)
  | probable_prime (n : ℕ)
  | ecpp_step
deriving DecidableEq

/-- Embedding of the `PrimalityCertificate` object state. -/
structure PrimalityCertificate where
  n : ℕ
  steps : List CertStep
  verified : Bool
deriving DecidableEq

/-- Embedding of `PrimalityCertificate._trial_division_primality`, inner
loop `d = 3; while d * d <= n: ...; d += 2` (fuel-driven; `n` units
amply cover the loop). -/
def tdpAux (n : ℕ) : ℕ → ℕ → Bool
  | 0, _ => true
  | fuel + 1, d =>
    if d * d ≤ n then (if d ∣ n then false else tdpAux n fuel (d + 2))
    else true

def trial_division_primality (n : ℕ) : Bool :=
  if n < 2 then false
  else if n = 2 then true
  else if n % 2 = 0 then false
  else tdpAux n n 3

/-- Embedding of `PrimalityCertificate._verify_step`: only `small_prime`
(re-checked by trial division, and only for `n ≤ 1000`) and `ecpp_step`
(placeholder, trivially accepted) are handled; every other step type,
`pocklington` and `probable_prime` included, falls through to
`return False`. -/
def verify_step : CertStep → Bool
  | .small_prime m => if m ≤ 1000 then trial_division_primality m else false
  | .ecpp_step => true
  | _ => false

/-- Embedding of `PrimalityCertificate.verify`: reject empty certificates,
then require every step to pass `_verify_step`. -/
def verify (c : PrimalityCertificate) : Bool :=
  if c.steps = [] then false else c.steps.all verify_step

/-- Inner loop of the partial factorization of `n - 1`:
`while R % p == 0: R //= p; F *= p; factors.append(p)` (fuel-driven). -/
def divideOutP (p : ℕ) : ℕ → ℕ → ℕ → List ℕ → ℕ × ℕ × List ℕ
  | 0, F, R, fs => (F, R, fs)
  | fuel + 1, F, R, fs =>
    if p ∣ R then divideOutP p fuel (F * p) (R / p) (fs ++ [p])
    else (F, R, fs)

/-- Outer loop over the fixed small-prime table. -/
def factorOutSmall : List ℕ → ℕ → ℕ → List ℕ → ℕ × ℕ × List ℕ
  | [], F, R, fs => (F, R, fs)
  | p :: ps, F, R, fs =>
    let t := divideOutP p R F R fs
    factorOutSmall ps t.1 t.2.1 t.2.2

/-- The hard-coded `small_primes` table of
`generate_certificate_simple`. -/
def small_primes_table : List ℕ :=
  [2, 3, 5, 7, 11, 13, 17, 19, 23, 29, 31, 37, 41, 43, 47, 53]

/-- Witness search `for a in range(2, min(100, n))`: first `a` passing the
Fermat check and, for each prime `q` of the factored part (the Python
iteration over `set(factors)` checks them all, so list order is
immaterial), `gcd(powmod(a, (n-1)//q, n) - 1, n) == 1` (the `- 1` and the
gcd are mpz operations, modelled over `Int`). -/
def findWitness (n n1 : ℕ) (factors : List ℕ) : Option ℕ :=
  (List.range' 2 (min 100 n - 2)).find? fun a =>
    decide (ShorClassical.powmod a n1 n = 1) &&
      factors.all fun q =>
        decide (Int.gcd ((ShorClassical.powmod a (n1 / q) n : ℤ) - 1)
          (n : ℤ) = 1)

/-- Embedding of `generate_certificate_simple` (`gmpy2.is_prime(n, 50)`
modelled as primality). -/
def generate_certificate_simple (n : ℕ) : Option PrimalityCertificate :=
  if ¬ Nat.Prime n then none
  else if n ≤ 1000 then
    some ⟨n, [CertStep.small_prime n], true⟩
  else
    let t := factorOutSmall small_primes_table 1 (n - 1) []
    if t.1 * t.1 > n then
      match findWitness n (n - 1) t.2.2 with
      | some a => some ⟨n, [CertStep.pocklington n a t.1 t.2.1 t.2.2], true⟩
      | none => some ⟨n, [CertStep.probable_prime n], false⟩
    else some ⟨n, [CertStep.probable_prime n], false⟩

set_option maxRecDepth 100000 in
set_option exponentiation.threshold 4096 in
/-- Claim C7: the round trip fails.  For the prime `n = 1009` the builder
produces a Pocklington certificate (witness `11`, fully factored
`F = 1008`, `R = 1`) and even marks it `verified`, but `verify` returns
`false` on that very certificate because `_verify_step` has no branch for
the `pocklington` step type.  This contradicts the code intent (and its
own demo, which expects the produced certificate to validate). -/
theorem c7_certificate_roundtrip_failure :
    Nat.Prime 1009 ∧
      generate_certificate_simple 1009 =
        some ⟨1009,
          [CertStep.pocklington 1009 11 1008 1 [2, 2, 2, 2, 3, 3, 7]],
          true⟩ ∧
      verify ⟨1009,
        [CertStep.pocklington 1009 11 1008 1 [2, 2, 2, 2, 3, 3, 7]],
        true⟩ = false := by
  refine ⟨by norm_num, by decide, by decide⟩

end Certificate

namespace BatchGcd

/-- Divisor stepping of `factorize_completely`:
`if d == 2: d = 3 else: d += 2`. -/
def nextDivisor (d : ℕ) : ℕ := if d = 2 then 3 else d + 2

lemma nextDivisor_gt (d : ℕ) : d < nextDivisor d := by
  unfold nextDivisor
  split <;> omega

lemma nextDivisor_odd {d : ℕ} (h : d = 2 ∨ d % 2 = 1) :
    nextDivisor d % 2 = 1 := by
  unfold nextDivisor
  rcases h with h | h <;> split <;> omega

/-- Stepping never skips a prime: if every prime factor is at least `d`,
`d` itself does not divide, and the candidate `p` is prime, then `p` is
at least the next divisor (`d + 1` is even in the odd case). -/
lemma nextDivisor_le_prime {d p : ℕ} (hd2 : 2 ≤ d) (h3 : d = 2 ∨ d % 2 = 1)
    (hp : Nat.Prime p) (hdlep : d ≤ p) (hpne : p ≠ d) :
    nextDivisor d ≤ p := by
  unfold nextDivisor
  have hp2 : 2 ≤ p := hp.two_le
  rcases h3 with h3 | h3
  · subst h3
    split <;> omega
  · have hd3 : 3 ≤ d := by omega
    have hpne1 : p ≠ d + 1 := by
      intro hpe
      have heven : Even p := ⟨(d + 1) / 2, by omega⟩
      have : p = 2 := (Nat.Prime.even_iff hp).mp heven
      omega
    split <;> omega

/-- Embedding of `factorize_completely` from `batch_gcd.py`: trial
division by `2, 3, 5, 7, ...` collecting prime factors with multiplicity,
then the remaining cofactor when it exceeds `1`.  The nested Python loops
(`while d * d <= n:` with the inner `while n % d == 0:`) are merged into
one recursion that re-checks the outer guard between divisions; on every
state the algorithm can reach this produces the same list, because once
`d * d > n` holds with `d ∣ n` and no factor of `n` below `d` remains,
the cofactor `n` is exactly `d` and is emitted by the final branch. -/
def trialFactorLoop (n d : ℕ) : List ℕ :=
  if h : 2 ≤ d ∧ d * d ≤ n then
    if hd : d ∣ n then d :: trialFactorLoop (n / d) d
    else trialFactorLoop n (nextDivisor d)
  else if 1 < n then [n] else []
termination_by (n, n + 1 - d)
decreasing_by
  · exact Prod.Lex.left _ _
      (Nat.div_lt_self (by nlinarith [h.1, h.2]) (by omega))
  · have hdn : d ≤ n := le_trans (Nat.le_mul_of_pos_left d (by omega)) h.2
    have := nextDivisor_gt d
    exact Prod.Lex.right _ (by omega)

def factorize_completely (n : ℕ) : List ℕ := trialFactorLoop n 2

/-- Main loop invariant for `trialFactorLoop`: starting from a positive
`n` whose prime factors are all at least `d` (with `d = 2` or `d` odd),
the returned list consists of primes and multiplies back to `n`. -/
lemma trialFactorLoop_spec :
    ∀ n d : ℕ, 1 ≤ n → 2 ≤ d → (d = 2 ∨ d % 2 = 1) →
      (∀ p, Nat.Prime p → p ∣ n → d ≤ p) →
      (∀ x ∈ trialFactorLoop n d, Nat.Prime x) ∧
        (trialFactorLoop n d).prod = n := by
  intro n d
  induction n, d using trialFactorLoop.induct with
  | case1 n d h hd ih =>
    intro h1 h2 h3 h4
    rw [trialFactorLoop, dif_pos h, dif_pos hd]
    have hmf : Nat.minFac d = d :=
      le_antisymm (Nat.minFac_le (by omega))
        (h4 _ (Nat.minFac_prime (by omega)) (dvd_trans (Nat.minFac_dvd d) hd))
    have hdp : Nat.Prime d := hmf ▸ Nat.minFac_prime (by omega : d ≠ 1)
    have hnd1 : 1 ≤ n / d :=
      Nat.div_pos (Nat.le_of_dvd (by omega) hd) (by omega)
    have hdiv : n / d ∣ n := ⟨d, (Nat.div_mul_cancel hd).symm⟩
    have hrec := ih hnd1 h2 h3
      (fun p hp hpd => h4 p hp (dvd_trans hpd hdiv))
    refine ⟨?_, ?_⟩
    · intro x hx
      rcases List.mem_cons.mp hx with rfl | hx'
      · exact hdp
      · exact hrec.1 x hx'
    · rw [List.prod_cons, hrec.2]
      exact Nat.mul_div_cancel' hd
  | case2 n d h hd ih =>
    intro h1 h2 h3 h4
    rw [trialFactorLoop, dif_pos h, dif_neg hd]
    apply ih h1
    · have := nextDivisor_gt d
      omega
    · exact Or.inr (nextDivisor_odd h3)
    · intro p hp hpd
      exact nextDivisor_le_prime h.1 h3 hp (h4 p hp hpd)
        (fun hpe => hd (hpe ▸ hpd))
  | case3 n d h hn1 =>
    intro h1 h2 h3 h4
    rw [trialFactorLoop, dif_neg h, if_pos hn1]
    have hnp : Nat.Prime n := by
      by_contra hnotp
      set p := Nat.minFac n with hpdef
      have hpp : Nat.Prime p := Nat.minFac_prime (by omega)
      have hpsq : p * p ≤ n := by
        have h2sq := Nat.minFac_sq_le_self (by omega : 0 < n) hnotp
        nlinarith [h2sq]
      have hdp : d ≤ p := h4 p hpp (Nat.minFac_dvd n)
      have : d * d ≤ n := le_trans (Nat.mul_le_mul hdp hdp) hpsq
      exact h ⟨h2, this⟩
    refine ⟨?_, by simp⟩
    intro x hx
    rcases List.mem_cons.mp hx with rfl | hx'
    · exact hnp
    · exact absurd hx' (List.not_mem_nil x)
  | case4 n d h hn1 =>
    intro h1 h2 h3 h4
    rw [trialFactorLoop, dif_neg h, if_neg hn1]
    refine ⟨fun x hx => absurd hx (List.not_mem_nil x), ?_⟩
    simp only [List.prod_nil]
    omega

/-- Claim C10: for every `n ≥ 2`, `factorize_completely n` returns a list
of primes (with multiplicity) whose product is exactly `n`. -/
theorem c10_factorize_completely_correct {n : ℕ} (hn : 2 ≤ n) :
    (∀ p ∈ factorize_completely n, Nat.Prime p) ∧
      (factorize_completely n).prod = n :=
  trialFactorLoop_spec n 2 (by omega) le_rfl (Or.inl rfl)
    (fun p hp _ => hp.two_le)

/-- Witness for C10 at `n = 12` (factorization `[2, 2, 3]`). -/
theorem c10_factorize_completely_witness :
    2 ≤ 12 ∧ ((∀ p ∈ factorize_completely 12, Nat.Prime p) ∧
      (factorize_completely 12).prod = 12) :=
  ⟨by norm_num, c10_factorize_completely_correct (by norm_num)⟩

end BatchGcd

namespace JobService

/-- Job lifecycle states (`JobStatus` of the data model). -/
inductive JobStatus where
  | pending
  | running
  | paused
  | completed
  | failed
  | cancelled
deriving DecidableEq

/-- Embedding of `JobService.pause_job` restricted to the state it
persists: the status changes only when the job is currently running. -/
def pause_job (s : JobStatus) : JobStatus :=
  if s = JobStatus.running then JobStatus.paused else s

/-- Embedding of `JobService.resume_job`: the status changes only when
the job is currently paused (the task is then re-enqueued). -/
def resume_job (s : JobStatus) : JobStatus :=
  if s = JobStatus.paused then JobStatus.running else s

/-- Embedding of `JobService.cancel_job`: only pending, running or paused
jobs move to cancelled; any other (terminal) state is left untouched and
the job is returned as is. -/
def cancel_job (s : JobStatus) : JobStatus :=
  if s = JobStatus.pending ∨ s = JobStatus.running ∨ s = JobStatus.paused
  then JobStatus.cancelled else s

/-- Embedding of the `POST /jobs/{id}/control` handler `control_job`: it
dispatches on the action string and answers 400 only for an unknown
action; otherwise it returns HTTP success together with the (possibly
unchanged) job status. -/
def control_job (action : String) (s : JobStatus) :
    Except ℕ JobStatus :=
  if action = "pause" then Except.ok (pause_job s)
  else if action = "resume" then Except.ok (resume_job s)
  else if action = "cancel" then Except.ok (cancel_job s)
  else Except.error 400

/-- Terminal job states. -/
def isTerminal (s : JobStatus) : Bool :=
  s = JobStatus.completed || s = JobStatus.failed || s = JobStatus.cancelled

/-- Claim C9 counterexample: cancelling a completed job is not rejected
with HTTP 400; the endpoint answers success with the unchanged state. -/
theorem c9_counterexample :
    isTerminal JobStatus.completed = true ∧
      control_job "cancel" JobStatus.completed =
        Except.ok JobStatus.completed := by
  constructor <;> rfl

/-- Claim C9 (amended): for a job in a terminal state
(completed/failed/cancelled), every legal control action (pause, resume,
cancel) is a silent no-op: the endpoint returns HTTP success and the
job state is unchanged.  The 400 response exists only for action strings
outside {pause, resume, cancel}. -/
theorem c9_control_terminal_noop (s : JobStatus) (a : String)
    (hs : isTerminal s = true)
    (ha : a = "pause" ∨ a = "resume" ∨ a = "cancel") :
    control_job a s = Except.ok s := by
  have hnotr : s ≠ JobStatus.running := by
    intro h
    subst h
    exact absurd hs (by decide)
  have hnotp : s ≠ JobStatus.paused := by
    intro h
    subst h
    exact absurd hs (by decide)
  have hnotpend : s ≠ JobStatus.pending := by
    intro h
    subst h
    exact absurd hs (by decide)
  rcases ha with rfl | rfl | rfl
  · simp [control_job, pause_job, hnotr]
  · simp [control_job, resume_job, hnotp]
  · simp [control_job, cancel_job, hnotpend, hnotr, hnotp]

/-- Witness for C9: cancel on a failed job. -/
theorem c9_control_terminal_noop_witness :
    isTerminal JobStatus.failed = true ∧
      ((("cancel" : String) = "pause" ∨ ("cancel" : String) = "resume" ∨
          ("cancel" : String) = "cancel") ∧
        control_job "cancel" JobStatus.failed =
          Except.ok JobStatus.failed) :=
  ⟨by decide, Or.inr (Or.inr rfl),
    c9_control_terminal_noop JobStatus.failed "cancel" (by decide)
      (Or.inr (Or.inr rfl))⟩

end JobService

namespace Worker

/-- Progress percent written at entry of the equation-guided search stage
(`job.progress_percent = 75` in `run_factorization_task`, just before the
prime iteration starts). -/
def equationSearchEntryProgress : ℤ := 75

/-- Progress percent written inside the primesieve branch of stage 7 every
10000 tested primes: `int(70 + (progress * 0.25))`, where `progress` is
the logarithmic estimate in `[0, 100]` returned by
`SemiPrimeEquationSolver.estimate_progress`.  The truncation toward zero
is `Int.floor` because the operand is nonnegative there. -/
def equationSearchTickProgress (est : ℚ) : ℤ :=
  Int.floor ((70 : ℚ) + est * (25 / 100))

/-- Progress percent written inside the arbitrary-precision branch of
stage 7: `int(75 + (progress * 0.20))` (consistent with the entry value,
unlike the primesieve branch). -/
def equationSearchBigTickProgress (est : ℚ) : ℤ :=
  Int.floor ((75 : ℚ) + est * (20 / 100))

/-- Claim C8: the persisted progress can decrease.  The stage entry writes
75, and the next coalesced tick of the primesieve loop writes
`int(70 + est/4)`, which is below 75 for every estimate under 20 percent;
at a 6 percent estimate the pair of consecutive writes is (75, 71). -/
theorem c8_progress_decreases :
    equationSearchTickProgress 6 = 71 ∧
      equationSearchTickProgress 6 < equationSearchEntryProgress ∧
      (0 : ℚ) ≤ 6 ∧ (6 : ℚ) ≤ 100 := by
  have h : equationSearchTickProgress 6 = 71 := by
    unfold equationSearchTickProgress
    rw [Int.floor_eq_iff]
    constructor <;> norm_num
  refine ⟨h, ?_, by norm_num, by norm_num⟩
  rw [h]
  decide

end Worker
